import Mathlib

/-!
Verification development for the offchain-sdk transaction dispatcher core.

The Go sources are shallowly embedded: the `Noncer` (tracker package), the
`TxrV2` transactor loop, and the sender's `DefaultTxReplacementPolicy` become
pure Lean functions over explicit state; machine `uint64` nonces are modelled
as `Nat` (nonce arithmetic in the source only increments within chain-assigned
ranges, far from the wrap boundary); Go errors become `Option String` (with
`none` for a nil error), and fallible operations return `Option` / `Except`.
-/

/-! ## Noncer (tracker package)

The `Noncer` keeps two skiplists keyed by `uint64` nonce, `acquired` and
`inFlight`, plus `latestConfirmedNonce`.  Only the key sets matter for the
properties below, so each skiplist is embedded as a `Finset ℕ`.
`inFlight.Back()` is the maximum key, `Get i == nil` is non-membership,
`Set`/`Remove` are `insert`/`erase`. -/

structure NoncerState where
  acquired : Finset ℕ
  inFlight : Finset ℕ
  latestConfirmedNonce : ℕ
deriving DecidableEq

/-- The gap-scan loop body of `Noncer.Acquire`:
`for i := latestConfirmedNonce; i <= max; i++ { if inFlight.Get(i) == nil { ... } }`.
`fuel` is the number of remaining loop iterations, so the scan over
`[lo, hi]` is run with fuel `hi + 1 - lo`. -/
def scanGapAux (inFlight : Finset ℕ) : ℕ → ℕ → Option ℕ
  | _lo, 0 => none
  | lo, fuel + 1 =>
    if lo ∈ inFlight then scanGapAux inFlight (lo + 1) fuel else some lo

/-- The gap scan of `Noncer.Acquire` over the inclusive range `[lo, hi]`:
the first nonce in the range absent from `inFlight`, if any. -/
def scanGap (inFlight : Finset ℕ) (lo hi : ℕ) : Option ℕ :=
  scanGapAux inFlight lo (hi + 1 - lo)

/-- Embeds `Noncer.Acquire`.  `pending` is the result of the chain
`PendingNonceAt` RPC (`none` models an RPC error, in which case the Go code
returns `(0, err)` before touching `acquired`).  Returns the updated state and
the acquired nonce (`none` on error). -/
def NoncerState.acquire (s : NoncerState) (pending : Option ℕ) :
    NoncerState × Option ℕ :=
  if h : s.inFlight.Nonempty then
    let maxInFlight := s.inFlight.max' h
    let nextNonce :=
      match scanGap s.inFlight s.latestConfirmedNonce maxInFlight with
      | some gap => gap
      | none => maxInFlight + 1
    ({ s with acquired := insert nextNonce s.acquired }, some nextNonce)
  else
    match pending with
    | some nextNonce =>
        ({ s with acquired := insert nextNonce s.acquired }, some nextNonce)
    | none => (s, none)

/-- Embeds `Noncer.SetInFlight`: remove the nonce from `acquired`, add it to
`inFlight`. -/
def NoncerState.setInFlight (s : NoncerState) (nonce : ℕ) : NoncerState :=
  { s with acquired := s.acquired.erase nonce, inFlight := insert nonce s.inFlight }

/-- Embeds `Noncer.RemoveInFlight`: remove the transaction's nonce from `inFlight`. -/
def NoncerState.removeInFlight (s : NoncerState) (nonce : ℕ) : NoncerState :=
  { s with inFlight := s.inFlight.erase nonce }

/-- One mutating `Noncer` call.  `acquire` carries the chain's
`PendingNonceAt` answer for the call (used only when `inFlight` is empty). -/
inductive NoncerOp
  | acquire (pending : Option ℕ)
  | setInFlight (nonce : ℕ)
  | removeInFlight (nonce : ℕ)
deriving DecidableEq

def NoncerState.step (s : NoncerState) : NoncerOp → NoncerState
  | .acquire pending => (s.acquire pending).1
  | .setInFlight nonce => s.setInFlight nonce
  | .removeInFlight nonce => s.removeInFlight nonce

/-- Embeds `NewNoncer`: both skiplists empty; `latestConfirmedNonce` is the zero
value. -/
def NoncerState.initial : NoncerState := ⟨∅, ∅, 0⟩

/-- The state after a sequence of `Noncer` calls starting from `NewNoncer`. -/
def NoncerState.run (ops : List NoncerOp) : NoncerState :=
  ops.foldl NoncerState.step NoncerState.initial

theorem scanGapAux_spec (inF : Finset ℕ) :
    ∀ fuel lo,
      (∀ g, scanGapAux inF lo fuel = some g →
        lo ≤ g ∧ g < lo + fuel ∧ g ∉ inF ∧ ∀ m, lo ≤ m → m < g → m ∈ inF) ∧
      (scanGapAux inF lo fuel = none → ∀ m, lo ≤ m → m < lo + fuel → m ∈ inF) := by
  intro fuel
  induction fuel with
  | zero =>
    intro lo
    refine ⟨fun g hg => by simp [scanGapAux] at hg, fun _ m hm hm' => ?_⟩
    omega
  | succ fuel ih =>
    intro lo
    by_cases hlo : lo ∈ inF
    · have hrec : scanGapAux inF lo (fuel + 1) = scanGapAux inF (lo + 1) fuel := by
        simp [scanGapAux, hlo]
      constructor
      · intro g hg
        rw [hrec] at hg
        obtain ⟨h1, h2, h3, h4⟩ := (ih (lo + 1)).1 g hg
        refine ⟨by omega, by omega, h3, ?_⟩
        intro m hm hm'
        rcases Nat.eq_or_lt_of_le hm with rfl | hm2
        · exact hlo
        · exact h4 m (by omega) hm'
      · intro hg m hm hm'
        rw [hrec] at hg
        rcases Nat.eq_or_lt_of_le hm with rfl | hm2
        · exact hlo
        · exact (ih (lo + 1)).2 hg m (by omega) (by omega)
    · have hstop : scanGapAux inF lo (fuel + 1) = some lo := by
        simp [scanGapAux, hlo]
      constructor
      · intro g hg
        rw [hstop] at hg
        obtain rfl : lo = g := by simpa using hg
        exact ⟨le_rfl, by omega, hlo, fun m hm hm' => absurd hm (by omega)⟩
      · intro hg
        rw [hstop] at hg
        simp at hg

theorem scanGap_some (inF : Finset ℕ) (lo hi g : ℕ)
    (h : scanGap inF lo hi = some g) :
    lo ≤ g ∧ g ≤ hi ∧ g ∉ inF ∧ ∀ m, lo ≤ m → m < g → m ∈ inF := by
  obtain ⟨h1, h2, h3, h4⟩ := (scanGapAux_spec inF (hi + 1 - lo) lo).1 g h
  exact ⟨h1, by omega, h3, h4⟩

theorem scanGap_none (inF : Finset ℕ) (lo hi : ℕ)
    (h : scanGap inF lo hi = none) :
    ∀ m, lo ≤ m → m ≤ hi → m ∈ inF := by
  intro m hm hm'
  exact (scanGapAux_spec inF (hi + 1 - lo) lo).2 h m hm (by omega)

theorem acquire_snd_nonempty (s : NoncerState) (pending : Option ℕ)
    (h : s.inFlight.Nonempty) :
    (s.acquire pending).2 =
      some (match scanGap s.inFlight s.latestConfirmedNonce (s.inFlight.max' h) with
            | some gap => gap
            | none => s.inFlight.max' h + 1) := by
  simp only [NoncerState.acquire, dif_pos h]

/-- C1: with `inFlight` non-empty, `Noncer.Acquire` returns the least nonce of
`[latestConfirmedNonce, max(inFlight)]` absent from `inFlight` when such a gap
exists, and `max(inFlight) + 1` otherwise; it never returns `n` while a
smaller nonce of that range is absent from `inFlight`.  With `inFlight` empty
it returns the chain's `PendingNonceAt` answer, and every successfully
returned nonce is added to `acquired`. -/
theorem Noncer_Acquire_spec (s : NoncerState) (pending : Option ℕ) :
    (∀ h : s.inFlight.Nonempty,
      (∀ hg : (Finset.Icc s.latestConfirmedNonce (s.inFlight.max' h) \ s.inFlight).Nonempty,
        (s.acquire pending).2 =
          some ((Finset.Icc s.latestConfirmedNonce (s.inFlight.max' h) \ s.inFlight).min' hg)) ∧
      (Finset.Icc s.latestConfirmedNonce (s.inFlight.max' h) \ s.inFlight = ∅ →
        (s.acquire pending).2 = some (s.inFlight.max' h + 1)) ∧
      (∀ n, (s.acquire pending).2 = some n →
        ∀ m, m < n → m ∈ Finset.Icc s.latestConfirmedNonce (s.inFlight.max' h) →
          m ∈ s.inFlight)) ∧
    (s.inFlight = ∅ → (s.acquire pending).2 = pending) ∧
    (∀ n, (s.acquire pending).2 = some n → n ∈ (s.acquire pending).1.acquired) := by
  refine ⟨fun h => ?_, fun hempty => ?_, fun n hn => ?_⟩
  · set lo := s.latestConfirmedNonce
    set hi := s.inFlight.max' h
    have hsnd := acquire_snd_nonempty s pending h
    refine ⟨fun hg => ?_, fun hnogap => ?_, fun n hn m hmn hmIcc => ?_⟩
    · -- a gap exists: the scan finds exactly the least element of the gap set
      rcases hscan : scanGap s.inFlight lo hi with _ | g
      · -- scan found nothing: contradicts the gap
        obtain ⟨x, hx⟩ := hg
        rw [Finset.mem_sdiff, Finset.mem_Icc] at hx
        exact absurd (scanGap_none s.inFlight lo hi hscan x hx.1.1 hx.1.2) hx.2
      · obtain ⟨h1, h2, h3, h4⟩ := scanGap_some s.inFlight lo hi g hscan
        have hgmem : g ∈ Finset.Icc lo hi \ s.inFlight := by
          rw [Finset.mem_sdiff, Finset.mem_Icc]
          exact ⟨⟨h1, h2⟩, h3⟩
        have hmin : (Finset.Icc lo hi \ s.inFlight).min' hg = g := by
          refine le_antisymm (Finset.min'_le _ _ hgmem) (Finset.le_min' _ _ _ ?_)
          intro y hy
          rw [Finset.mem_sdiff, Finset.mem_Icc] at hy
          by_contra hlt
          exact hy.2 (h4 y hy.1.1 (by omega))
        rw [hsnd, hscan, hmin]
    · -- no gap: the scan fails and the next nonce is max(inFlight) + 1
      rcases hscan : scanGap s.inFlight lo hi with _ | g
      · rw [hsnd, hscan]
      · obtain ⟨h1, h2, h3, _⟩ := scanGap_some s.inFlight lo hi g hscan
        have : g ∈ Finset.Icc lo hi \ s.inFlight := by
          rw [Finset.mem_sdiff, Finset.mem_Icc]
          exact ⟨⟨h1, h2⟩, h3⟩
        rw [hnogap] at this
        simp at this
    · -- gap filling: nothing smaller in range is skipped
      rw [hsnd] at hn
      rw [Finset.mem_Icc] at hmIcc
      rcases hscan : scanGap s.inFlight lo hi with _ | g
      · exact scanGap_none s.inFlight lo hi hscan m hmIcc.1 hmIcc.2
      · rw [hscan] at hn
        obtain rfl : g = n := by simpa using hn
        exact (scanGap_some s.inFlight lo hi g hscan).2.2.2 m hmIcc.1 hmn
  · have h : ¬s.inFlight.Nonempty := by simp [hempty]
    rcases pending with _ | p <;> simp [NoncerState.acquire, dif_neg h]
  · by_cases h : s.inFlight.Nonempty
    · have hsnd := acquire_snd_nonempty s pending h
      rw [hsnd] at hn
      obtain rfl := Option.some.inj hn
      simp only [NoncerState.acquire, dif_pos h]
      exact Finset.mem_insert_self _ _
    · rcases pending with _ | p
      · simp [NoncerState.acquire, dif_neg h] at hn
      · simp only [NoncerState.acquire, dif_neg h] at hn ⊢
        obtain rfl := Option.some.inj hn
        exact Finset.mem_insert_self _ _

/-- Witness for C1 at the concrete state
`acquired = ∅, inFlight = {3, 5}, latestConfirmedNonce = 2`: the range
`[2, 5]` has gaps `{2, 4}`, so `Acquire` returns `2` and records it as
acquired. -/
theorem Noncer_Acquire_spec_witness :
    ((NoncerState.mk ∅ {3, 5} 2).acquire none).2 = some 2 ∧
    2 ∈ ((NoncerState.mk ∅ {3, 5} 2).acquire none).1.acquired := by
  have h := Noncer_Acquire_spec (NoncerState.mk ∅ {3, 5} 2) none
  have h1 := (h.1 (show (NoncerState.mk ∅ {3, 5} 2).inFlight.Nonempty by decide)).1
    (by decide)
  have h2 : ((NoncerState.mk ∅ {3, 5} 2).acquire none).2 = some 2 := h1.trans (by decide)
  exact ⟨h2, h.2.2 2 h2⟩

theorem acquire_result_not_inFlight (s : NoncerState) (pending : Option ℕ)
    (h : s.inFlight.Nonempty) (n : ℕ) (hn : (s.acquire pending).2 = some n) :
    n ∉ s.inFlight := by
  rw [acquire_snd_nonempty s pending h] at hn
  rcases hscan : scanGap s.inFlight s.latestConfirmedNonce (s.inFlight.max' h) with _ | g
  · rw [hscan] at hn
    obtain rfl : s.inFlight.max' h + 1 = n := by simpa using hn
    intro hmem
    have := Finset.le_max' s.inFlight _ hmem
    omega
  · rw [hscan] at hn
    obtain rfl : g = n := by simpa using hn
    exact (scanGap_some _ _ _ _ hscan).2.2.1

theorem step_preserves_disjoint (s : NoncerState) (op : NoncerOp)
    (hd : Disjoint s.acquired s.inFlight) :
    Disjoint (s.step op).acquired (s.step op).inFlight := by
  cases op with
  | acquire pending =>
    by_cases h : s.inFlight.Nonempty
    · have hsnd := acquire_snd_nonempty s pending h
      have hnotin := acquire_result_not_inFlight s pending h _ hsnd
      simp only [NoncerState.step, NoncerState.acquire, dif_pos h]
      rw [Finset.disjoint_insert_left]
      exact ⟨hnotin, hd⟩
    · have hempty : s.inFlight = ∅ := Finset.not_nonempty_iff_eq_empty.mp h
      rcases pending with _ | p
      · simpa [NoncerState.step, NoncerState.acquire, dif_neg h] using hd
      · simp only [NoncerState.step, NoncerState.acquire, dif_neg h]
        rw [hempty]
        exact Finset.disjoint_empty_right _
  | setInFlight nonce =>
    simp only [NoncerState.step, NoncerState.setInFlight]
    rw [Finset.disjoint_insert_right]
    exact ⟨Finset.not_mem_erase _ _,
      Finset.disjoint_of_subset_left (Finset.erase_subset _ _) hd⟩
  | removeInFlight nonce =>
    exact Finset.disjoint_of_subset_right (Finset.erase_subset _ _) hd

theorem foldl_step_preserves_disjoint (ops : List NoncerOp) :
    ∀ s : NoncerState, Disjoint s.acquired s.inFlight →
      Disjoint (ops.foldl NoncerState.step s).acquired
        (ops.foldl NoncerState.step s).inFlight := by
  induction ops with
  | nil => exact fun s hs => hs
  | cons op rest ih =>
    intro s hs
    exact ih (s.step op) (step_preserves_disjoint s op hs)

/-- C7: the `Noncer` invariant `acquired ∩ inFlight = ∅` holds after every
sequence of `Acquire`, `SetInFlight` and `RemoveInFlight` calls starting from
the empty initial state. -/
theorem Noncer_acquired_inFlight_disjoint (ops : List NoncerOp) :
    Disjoint (NoncerState.run ops).acquired (NoncerState.run ops).inFlight :=
  foldl_step_preserves_disjoint ops NoncerState.initial (by decide)

/-- C10: a reachable state on which two consecutive `Acquire` calls (no
intervening `SetInFlight`) hand out the same nonce.  After acquiring nonce 5
from the chain and submitting it, `inFlight = {5}` and
`latestConfirmedNonce = 0`, so both `Acquire` calls find the gap `0`; the
second call returns a nonce that is already in `acquired`. -/
theorem Noncer_Acquire_duplicate :
    (NoncerState.run [.acquire (some 5), .setInFlight 5]).inFlight.Nonempty ∧
    ((NoncerState.run [.acquire (some 5), .setInFlight 5]).acquire none).2 = some 0 ∧
    0 ∈ ((NoncerState.run [.acquire (some 5), .setInFlight 5]).acquire none).1.acquired ∧
    (((NoncerState.run [.acquire (some 5), .setInFlight 5]).acquire none).1.acquire none).2
      = some 0 := by
  decide

/-! ## Sender replacement policy (core/transactor/sender/replacement.go)

Transactions are embedded with the fields the policy reads or writes; the
`*big.Int` fee caps are non-negative in every reachable transaction, so they
are modelled as `ℕ`; the destination address, value and calldata are
abstracted to `ℕ` / `List ℕ` since the policy only carries them through. -/

structure Tx where
  nonce : ℕ
  gasTipCap : ℕ
  gasFeeCap : ℕ
  gas : ℕ
  toAddr : ℕ
  value : ℕ
  data : List ℕ
deriving DecidableEq

/-- Modelled from the spec: `SetNonce` (sender package, not under `src/`; only
its call site in `replacement.go` is) returns the transaction with the nonce
replaced and every other field preserved. -/
def SetNonce (tx : Tx) (n : ℕ) : Tx := { tx with nonce := n }

/-- Modelled from the spec: `BumpGas` (sender package, not under `src/`; only
its call site in `replacement.go` is) increases both `GasTipCap` and
`GasFeeCap` by 15% (chain requires 10%; 5% buffer), rounding up, and
preserves all other fields. -/
def BumpGas (tx : Tx) : Tx :=
  { tx with
    gasTipCap := (115 * tx.gasTipCap + 99) / 100,
    gasFeeCap := (115 * tx.gasFeeCap + 99) / 100 }

def charsHasPre : List Char → List Char → Bool
  | [], _ => true
  | _ :: _, [] => false
  | a :: pat, b :: rest => a == b && charsHasPre pat rest

def strContainsAux (pat : List Char) : List Char → Bool
  | [] => charsHasPre pat []
  | c :: rest => charsHasPre pat (c :: rest) || strContainsAux pat rest

/-- Embeds Go's `strings.Contains(s, pat)`. -/
def strContains (s pat : String) : Bool :=
  strContainsAux pat.toList s.toList

/-- Embeds `errors.Is(err, core.ErrNonceTooLow) || strings.Contains(err.Error(),
"nonce too low")` over the string model of errors (`none` is a nil error).
The sentinel's message is exactly "nonce too low", so the typed check is
subsumed by the substring check. -/
def errIndicatesNonceTooLow (err : Option String) : Bool :=
  match err with
  | none => false
  | some msg => strContains msg "nonce too low"

/-- Embeds `errors.Is(err, txpool.ErrReplaceUnderpriced) ||
strings.Contains(err.Error(), "replacement transaction underpriced")`; the
sentinel's message is exactly the matched substring. -/
def errIndicatesReplaceUnderpriced (err : Option String) : Bool :=
  match err with
  | none => false
  | some msg => strContains msg "replacement transaction underpriced"

/-- Embeds `DefaultTxReplacementPolicy.GetNew`.  `getNextNonce` is the noncer
factory's `GetNextNonce` (injected as `d.nf` in the source), returning the
replacement nonce and `shouldBumpGas`. -/
def GetNew (getNextNonce : ℕ → ℕ × Bool) (tx : Tx) (err : Option String) : Tx :=
  let replaced :=
    if errIndicatesNonceTooLow err then
      (SetNonce tx (getNextNonce tx.nonce).1, (getNextNonce tx.nonce).2)
    else (tx, false)
  if replaced.2 || errIndicatesReplaceUnderpriced err then BumpGas replaced.1
  else replaced.1

theorem GetNew_cases (g : ℕ → ℕ × Bool) (tx : Tx) (err : Option String) :
    GetNew g tx err =
      (if (errIndicatesNonceTooLow err && (g tx.nonce).2) ||
           errIndicatesReplaceUnderpriced err then
        BumpGas (if errIndicatesNonceTooLow err then SetNonce tx (g tx.nonce).1 else tx)
       else (if errIndicatesNonceTooLow err then SetNonce tx (g tx.nonce).1 else tx)) := by
  by_cases hntl : errIndicatesNonceTooLow err <;> simp [GetNew, hntl]

/-- C2: `GetNew` replaces the nonce (with `GetNextNonce(tx.Nonce()).1`) iff
the error indicates "nonce too low"; it bumps the gas iff the error indicates
"replacement transaction underpriced" or the nonce was replaced with
`shouldBumpGas` true; all non-fee, non-nonce fields are always preserved, and
for any other error the transaction is returned unchanged. -/
theorem DefaultTxReplacementPolicy_GetNew_spec (g : ℕ → ℕ × Bool) (tx : Tx)
    (err : Option String) :
    ((errIndicatesNonceTooLow err = true → (GetNew g tx err).nonce = (g tx.nonce).1) ∧
     (errIndicatesNonceTooLow err = false → (GetNew g tx err).nonce = tx.nonce)) ∧
    ((((errIndicatesNonceTooLow err && (g tx.nonce).2) ||
        errIndicatesReplaceUnderpriced err) = true →
       (GetNew g tx err).gasTipCap = (115 * tx.gasTipCap + 99) / 100 ∧
       (GetNew g tx err).gasFeeCap = (115 * tx.gasFeeCap + 99) / 100) ∧
     (((errIndicatesNonceTooLow err && (g tx.nonce).2) ||
        errIndicatesReplaceUnderpriced err) = false →
       (GetNew g tx err).gasTipCap = tx.gasTipCap ∧
       (GetNew g tx err).gasFeeCap = tx.gasFeeCap)) ∧
    ((GetNew g tx err).gas = tx.gas ∧ (GetNew g tx err).toAddr = tx.toAddr ∧
     (GetNew g tx err).value = tx.value ∧ (GetNew g tx err).data = tx.data) ∧
    (errIndicatesNonceTooLow err = false →
      errIndicatesReplaceUnderpriced err = false → GetNew g tx err = tx) := by
  rw [GetNew_cases]
  by_cases hntl : errIndicatesNonceTooLow err <;>
    by_cases hup : errIndicatesReplaceUnderpriced err <;>
    by_cases hsb : (g tx.nonce).2 <;>
    simp [hntl, hup, hsb, BumpGas, SetNonce]

/-- Witness for C2: a "nonce too low" error with `shouldBumpGas = false`
replaces the nonce and leaves the fee caps alone. -/
theorem DefaultTxReplacementPolicy_GetNew_spec_witness :
    (GetNew (fun n => (n + 7, false)) (Tx.mk 1 10 20 3 4 5 [6])
      (some "nonce too low")).nonce = 8 ∧
    (GetNew (fun n => (n + 7, false)) (Tx.mk 1 10 20 3 4 5 [6])
      (some "nonce too low")).gasTipCap = 10 := by
  have h := DefaultTxReplacementPolicy_GetNew_spec (fun n => (n + 7, false))
    (Tx.mk 1 10 20 3 4 5 [6]) (some "nonce too low")
  exact ⟨h.1.1 (by decide), (h.2.1.2 (by decide)).1⟩

theorem bump15_ceil_le (t : ℕ) :
    ⌈(1.15 : ℚ) * (t : ℚ)⌉ ≤ (((115 * t + 99) / 100 : ℕ) : ℤ) := by
  rw [Int.ceil_le]
  set q : ℕ := (115 * t + 99) / 100 with hqdef
  have hq : 115 * t ≤ 100 * q := by rw [hqdef]; omega
  have h2 : (115 * (t : ℚ)) ≤ 100 * (q : ℚ) := by exact_mod_cast hq
  have h115 : (1.15 : ℚ) = 115 / 100 := by norm_num
  rw [h115, div_mul_eq_mul_div, div_le_iff₀ (by norm_num : (0 : ℚ) < 100)]
  push_cast
  linarith

/-- C3: whenever the replacement policy decides to gas-bump, the replacement
transaction satisfies `tipCap' ≥ ⌈1.15 · tipCap⌉` and
`feeCap' ≥ ⌈1.15 · feeCap⌉`, and all fields other than the fee caps (and,
when the nonce was replaced, the nonce) are preserved. -/
theorem BumpGas_replacement_bounds (g : ℕ → ℕ × Bool) (tx : Tx) (err : Option String)
    (hb : ((errIndicatesNonceTooLow err && (g tx.nonce).2) ||
           errIndicatesReplaceUnderpriced err) = true) :
    ⌈(1.15 : ℚ) * (tx.gasTipCap : ℚ)⌉ ≤ ((GetNew g tx err).gasTipCap : ℤ) ∧
    ⌈(1.15 : ℚ) * (tx.gasFeeCap : ℚ)⌉ ≤ ((GetNew g tx err).gasFeeCap : ℤ) ∧
    (GetNew g tx err).gas = tx.gas ∧
    (GetNew g tx err).toAddr = tx.toAddr ∧
    (GetNew g tx err).value = tx.value ∧
    (GetNew g tx err).data = tx.data ∧
    (errIndicatesNonceTooLow err = false → (GetNew g tx err).nonce = tx.nonce) := by
  have htip : (GetNew g tx err).gasTipCap = (115 * tx.gasTipCap + 99) / 100 := by
    rw [GetNew_cases, hb]
    by_cases hntl : errIndicatesNonceTooLow err <;> simp [hntl, BumpGas, SetNonce]
  have hfee : (GetNew g tx err).gasFeeCap = (115 * tx.gasFeeCap + 99) / 100 := by
    rw [GetNew_cases, hb]
    by_cases hntl : errIndicatesNonceTooLow err <;> simp [hntl, BumpGas, SetNonce]
  refine ⟨?_, ?_, ?_, ?_, ?_, ?_, ?_⟩
  · rw [htip]; exact bump15_ceil_le tx.gasTipCap
  · rw [hfee]; exact bump15_ceil_le tx.gasFeeCap
  all_goals
    rw [GetNew_cases, hb]
    by_cases hntl : errIndicatesNonceTooLow err <;> simp [hntl, BumpGas, SetNonce]

/-- Witness for C3: a "replacement transaction underpriced" error bumps the
fee caps of a transaction with `tipCap = 10` to at least `⌈11.5⌉ = 12`,
preserving the gas limit. -/
theorem BumpGas_replacement_bounds_witness :
    ⌈(1.15 : ℚ) * ((Tx.mk 1 10 20 3 4 5 [6]).gasTipCap : ℚ)⌉ ≤
      ((GetNew (fun n => (n, true)) (Tx.mk 1 10 20 3 4 5 [6])
        (some "replacement transaction underpriced")).gasTipCap : ℤ) ∧
    (GetNew (fun n => (n, true)) (Tx.mk 1 10 20 3 4 5 [6])
        (some "replacement transaction underpriced")).gas = 3 := by
  have h := BumpGas_replacement_bounds (fun n => (n, true)) (Tx.mk 1 10 20 3 4 5 [6])
    (some "replacement transaction underpriced") (by decide)
  exact ⟨h.1, h.2.2.1⟩

/-! ## Noncer.RefreshLoop (tracker package)

The loop creates ONE `time.Timer` (`time.NewTimer(5 * time.Second)`) and then
selects on `ctx.Done()` and `timer.C` forever.  A Go `time.Timer` delivers on
its channel exactly once unless `Reset` is called, and `RefreshLoop` never
calls `Reset`, so `timer.C` can be received from at most once per loop
lifetime.  The state below tracks whether the timer can still fire
(`timerArmed`) and how many times `latestConfirmedNonce` has been re-read
from the chain (`refreshes`); each `tick` is the elapse of one ~5 s timer
period while the context is alive. -/

structure RefreshLoopState where
  timerArmed : Bool
  refreshes : ℕ
deriving DecidableEq

/-- One ~5 s period elapsing: the select can receive from `timer.C` only if
the one-shot timer is still armed; receiving performs the `NonceAt` refresh
and, since the timer is never `Reset`, leaves it disarmed. -/
def RefreshLoopState.tick (s : RefreshLoopState) : RefreshLoopState :=
  if s.timerArmed then { timerArmed := false, refreshes := s.refreshes + 1 } else s

/-- The loop state after `periods` elapsed ~5 s periods with the context
alive, starting from a freshly created timer. -/
def refreshLoopRun : ℕ → RefreshLoopState
  | 0 => { timerArmed := true, refreshes := 0 }
  | n + 1 => (refreshLoopRun n).tick

theorem refreshLoopRun_closed (n : ℕ) :
    refreshLoopRun n =
      if n = 0 then { timerArmed := true, refreshes := 0 }
      else { timerArmed := false, refreshes := 1 } := by
  induction n with
  | zero => rfl
  | succ n ih =>
    have hstep : refreshLoopRun (n + 1) = (refreshLoopRun n).tick := rfl
    rw [hstep, ih]
    by_cases hn : n = 0 <;> simp [hn, RefreshLoopState.tick]

/-- C4 (refuted: code bug): because `RefreshLoop` uses `time.NewTimer` and
never resets it, `latestConfirmedNonce` is refreshed at most once no matter
how long the context stays alive; in particular after three ~5 s periods only
one refresh has happened, not one per period as the spec requires. -/
theorem Noncer_RefreshLoop_refreshes_at_most_once :
    (∀ periods, (refreshLoopRun periods).refreshes ≤ 1) ∧
    (refreshLoopRun 3).refreshes = 1 := by
  constructor
  · intro periods
    rw [refreshLoopRun_closed]
    split <;> simp
  · decide

/-! ## Preconfirmed state map (TxrV2, src/unnamed/part_000)

A Go `map[string]types.PreconfirmedState` read with its zero value for
missing keys is embedded as a total function `String → PreconfirmedState`
whose default is `unknown`: `delete` stores `unknown`, which is
observationally identical to removing the key. -/

/-- Modelled from the spec: the `types.PreconfirmedState` enum
`Unknown | Queued | Building | Sending | InFlight` (the `types` package file
declaring it is not under `src/`); `unknown` is the zero value. -/
inductive PreconfirmedState
  | unknown
  | queued
  | building
  | sending
  | inFlight
deriving DecidableEq

/-- Embeds `TxrV2.markState`: set the given state for every given message ID. -/
def markState (m : String → PreconfirmedState) (state : PreconfirmedState)
    (msgIDs : List String) : String → PreconfirmedState :=
  msgIDs.foldl (fun acc msgID => fun k => if k = msgID then state else acc k) m

/-- Embeds `TxrV2.removeStateTracking`: delete every given message ID from the map
(reads of a deleted key yield the zero value `unknown`). -/
def removeStateTracking (m : String → PreconfirmedState)
    (msgIDs : List String) : String → PreconfirmedState :=
  msgIDs.foldl (fun acc msgID => fun k => if k = msgID then .unknown else acc k) m

/-- Embeds `TxrV2.GetPreconfirmedState`: read the map (zero value for absent keys). -/
def GetPreconfirmedState (m : String → PreconfirmedState) (msgID : String) :
    PreconfirmedState :=
  m msgID

/-- C9: after `removeStateTracking(m)` a read of `m` yields `Unknown`;
`removeStateTracking` is idempotent, and every other message ID's entry is
unchanged. -/
theorem removeStateTracking_spec (m : String → PreconfirmedState) (msgID : String) :
    GetPreconfirmedState (removeStateTracking m [msgID]) msgID = .unknown ∧
    removeStateTracking (removeStateTracking m [msgID]) [msgID]
      = removeStateTracking m [msgID] ∧
    (∀ k, k ≠ msgID → removeStateTracking m [msgID] k = m k) := by
  refine ⟨?_, ?_, ?_⟩
  · simp [GetPreconfirmedState, removeStateTracking]
  · funext k
    by_cases hk : k = msgID <;> simp [removeStateTracking, hk]
  · intro k hk
    simp [removeStateTracking, hk]

/-- Witness for C9 at a concrete map: removing "a" clears it and leaves "b"
untouched. -/
theorem removeStateTracking_spec_witness :
    GetPreconfirmedState
      (removeStateTracking (fun _ => PreconfirmedState.queued) ["a"]) "a"
      = PreconfirmedState.unknown ∧
    removeStateTracking (fun _ => PreconfirmedState.queued) ["a"] "b"
      = PreconfirmedState.queued := by
  have h := removeStateTracking_spec (fun _ => PreconfirmedState.queued) "a"
  exact ⟨h.1, h.2.2 "b" (by decide)⟩

/-! ## TxrV2.SendTxRequest (src/unnamed/part_000)

The external queue is a FIFO list plus the `Push` contract
(`Push(req) → (queueID, err)`); `txReq.Validate()` (declared in the `types`
package) is abstracted by its verdict, since `SendTxRequest` only branches on
whether it returns an error. -/

structure Request where
  msgID : String
  toAddr : ℕ
  value : ℕ
  gasLimit : ℕ
  callData : List ℕ
deriving DecidableEq

structure Config where
  txBatchSize : ℕ
  waitFullBatchTimeout : Bool
  useQueueMessageID : Bool
deriving DecidableEq

structure TxrState where
  preconfirmedStates : String → PreconfirmedState
  queue : List Request

/-- Embeds `TxrV2.SendTxRequest`.  `validateErr` is the verdict of
`txReq.Validate()` and `pushResult` the queue's `Push` answer
(queue-assigned ID or error); a successful push appends the request to the
queue. -/
def SendTxRequest (cfg : Config) (s : TxrState) (req : Request)
    (validateErr : Option String) (pushResult : Except String String) :
    TxrState × Except String String :=
  match validateErr with
  | some e => (s, .error e)
  | none =>
    match pushResult with
    | .error e => (s, .error e)
    | .ok queueID =>
      let msgID := if cfg.useQueueMessageID then queueID else req.msgID
      ({ preconfirmedStates := markState s.preconfirmedStates .queued [msgID],
         queue := s.queue ++ [req] }, .ok msgID)

/-- C8: a request failing validation yields an error, pushes nothing and
leaves the preconfirmed map untouched; a successful push returns the
queue-assigned ID when `UseQueueMessageID` is set and the request's own
`MsgID` otherwise, appends the request to the queue, and marks exactly the
returned ID as `Queued`. -/
theorem TxrV2_SendTxRequest_spec (cfg : Config) (s : TxrState) (req : Request)
    (validateErr : Option String) (pushResult : Except String String) :
    (∀ e, validateErr = some e →
      SendTxRequest cfg s req validateErr pushResult = (s, .error e)) ∧
    (validateErr = none → ∀ queueID, pushResult = .ok queueID →
      (SendTxRequest cfg s req validateErr pushResult).2 =
        .ok (if cfg.useQueueMessageID then queueID else req.msgID) ∧
      (SendTxRequest cfg s req validateErr pushResult).1.queue = s.queue ++ [req] ∧
      (SendTxRequest cfg s req validateErr pushResult).1.preconfirmedStates
        (if cfg.useQueueMessageID then queueID else req.msgID) = .queued ∧
      (∀ k, k ≠ (if cfg.useQueueMessageID then queueID else req.msgID) →
        (SendTxRequest cfg s req validateErr pushResult).1.preconfirmedStates k
          = s.preconfirmedStates k)) := by
  constructor
  · rintro e rfl
    rfl
  · rintro rfl queueID rfl
    refine ⟨rfl, rfl, ?_, ?_⟩
    · simp [SendTxRequest, markState]
    · intro k hk
      simp [SendTxRequest, markState, hk]

/-- Witness for C8: with `UseQueueMessageID = false`, a valid request keeps
its own `MsgID` "m" and exactly "m" is marked `Queued`. -/
theorem TxrV2_SendTxRequest_spec_witness :
    (SendTxRequest (Config.mk 4 false false)
      (TxrState.mk (fun _ => PreconfirmedState.unknown) [])
      (Request.mk "m" 1 2 3 [4]) none (.ok "q7")).2 = .ok "m" ∧
    (SendTxRequest (Config.mk 4 false false)
      (TxrState.mk (fun _ => PreconfirmedState.unknown) [])
      (Request.mk "m" 1 2 3 [4]) none (.ok "q7")).1.preconfirmedStates "m"
      = PreconfirmedState.queued ∧
    (SendTxRequest (Config.mk 4 false false)
      (TxrState.mk (fun _ => PreconfirmedState.unknown) [])
      (Request.mk "m" 1 2 3 [4]) none (.ok "q7")).1.preconfirmedStates "x"
      = PreconfirmedState.unknown := by
  have h := (TxrV2_SendTxRequest_spec (Config.mk 4 false false)
    (TxrState.mk (fun _ => PreconfirmedState.unknown) [])
    (Request.mk "m" 1 2 3 [4]) none (.ok "q7")).2 rfl "q7" rfl
  refine ⟨?_, ?_, ?_⟩
  · simpa using h.1
  · simpa using h.2.2.1
  · simpa using h.2.2.2 "x" (by decide)

/-! ## TxrV2.retrieveBatch (src/unnamed/part_000)

Each loop iteration resolves the `select` to one of: observing
`ctx.Done()`, receiving from `timer.C` (the `TxBatchTimeout` timer), or the
`default` branch.  In the default branch, `reply` is the queue's behaviour
for that iteration: `none` when `ReceiveMany` errors (the loop logs and
continues), `some k` when the queue is willing to hand over up to `k`
requests — `ReceiveMany(max)` returns at most `max` of them, modelled as
`take (min k max)` from the FIFO.  The scheduler's choices form the event
script; a script that ends with the loop still running yields `none`. -/

inductive BatchEvent
  | ctxDone
  | timerFired
  | step (reply : Option ℕ)
deriving DecidableEq

/-- How `retrieveBatch` returned: context cancelled (`return nil`), timer
fired (`return requests`), batch full with `WaitFullBatchTimeout` false
(immediate return), or batch full having then waited for the timer. -/
inductive BatchOutcome
  | cancelled
  | timedOut (batch : List Request)
  | fullEarly (batch : List Request)
  | fullAfterTimer (batch : List Request)
deriving DecidableEq

def batchOf : BatchOutcome → List Request
  | .cancelled => []
  | .timedOut b => b
  | .fullEarly b => b
  | .fullAfterTimer b => b

/-- The blocking `<-timer.C` performed when the batch is full and
`WaitFullBatchTimeout` is true: only the timer event unblocks it. -/
def waitTimer (batch : List Request) : List BatchEvent → Option BatchOutcome
  | [] => none
  | .timerFired :: _ => some (.fullAfterTimer batch)
  | _ :: rest => waitTimer batch rest

def retrieveBatchGo (cfg : Config) :
    List Request → List Request → List BatchEvent → Option BatchOutcome
  | _queue, _batch, [] => none
  | queue, batch, e :: rest =>
    match e with
    | .ctxDone => some .cancelled
    | .timerFired => some (.timedOut batch)
    | .step reply =>
      let txsRemaining := cfg.txBatchSize - batch.length
      if txsRemaining = 0 then
        if cfg.waitFullBatchTimeout then waitTimer batch rest
        else some (.fullEarly batch)
      else
        match reply with
        | none => retrieveBatchGo cfg queue batch rest
        | some k =>
          let got := queue.take (min k txsRemaining)
          retrieveBatchGo cfg (queue.drop (min k txsRemaining)) (batch ++ got) rest

/-- Embeds `TxrV2.retrieveBatch`: run the loop from an empty batch. -/
def retrieveBatch (cfg : Config) (queue : List Request)
    (script : List BatchEvent) : Option BatchOutcome :=
  retrieveBatchGo cfg queue [] script

theorem waitTimer_outcome (batch : List Request) :
    ∀ script out, waitTimer batch script = some out → out = .fullAfterTimer batch := by
  intro script
  induction script with
  | nil => intro out h; simp [waitTimer] at h
  | cons e rest ih =>
    intro out h
    cases e with
    | timerFired => simpa [waitTimer] using h.symm
    | ctxDone => exact ih out h
    | step reply => exact ih out h

theorem retrieveBatchGo_spec (cfg : Config) :
    ∀ (script : List BatchEvent) (queue batch : List Request),
      batch.length ≤ cfg.txBatchSize →
      ∀ out, retrieveBatchGo cfg queue batch script = some out →
        (batchOf out).length ≤ cfg.txBatchSize ∧
        (∀ b, out = .fullEarly b →
          cfg.waitFullBatchTimeout = false ∧ b.length = cfg.txBatchSize) ∧
        (∀ b, out = .fullAfterTimer b →
          cfg.waitFullBatchTimeout = true ∧ b.length = cfg.txBatchSize) := by
  intro script
  induction script with
  | nil =>
    intro queue batch _ out h
    simp [retrieveBatchGo] at h
  | cons e rest ih =>
    intro queue batch hlen out h
    cases e with
    | ctxDone =>
      obtain rfl : BatchOutcome.cancelled = out := by
        simpa [retrieveBatchGo] using h
      exact ⟨by simp [batchOf], by simp, by simp⟩
    | timerFired =>
      obtain rfl : BatchOutcome.timedOut batch = out := by
        simpa [retrieveBatchGo] using h
      exact ⟨by simpa [batchOf] using hlen, by simp, by simp⟩
    | step reply =>
      by_cases hfull : cfg.txBatchSize - batch.length = 0
      · have hlenfull : batch.length = cfg.txBatchSize := by omega
        by_cases hwait : cfg.waitFullBatchTimeout
        · have hw : waitTimer batch rest = some out := by
            simpa [retrieveBatchGo, hfull, hwait] using h
          obtain rfl := waitTimer_outcome batch rest out hw
          exact ⟨by simpa [batchOf] using hlen,
            by simp, fun b hb => by
              obtain rfl : batch = b := by simpa using hb
              exact ⟨hwait, hlenfull⟩⟩
        · obtain rfl : BatchOutcome.fullEarly batch = out := by
            simpa [retrieveBatchGo, hfull, hwait] using h
          refine ⟨by simpa [batchOf] using hlen, fun b hb => ?_, by simp⟩
          obtain rfl : batch = b := by simpa using hb
          exact ⟨by simpa using hwait, hlenfull⟩
      · cases reply with
        | none =>
          have hrec : retrieveBatchGo cfg queue batch rest = some out := by
            simpa [retrieveBatchGo, hfull] using h
          exact ih queue batch hlen out hrec
        | some k =>
          have hrec : retrieveBatchGo cfg
              (queue.drop (min k (cfg.txBatchSize - batch.length)))
              (batch ++ queue.take (min k (cfg.txBatchSize - batch.length))) rest
              = some out := by
            simpa [retrieveBatchGo, hfull] using h
          have hlen2 : (batch ++ queue.take
              (min k (cfg.txBatchSize - batch.length))).length ≤ cfg.txBatchSize := by
            rw [List.length_append, List.length_take]
            omega
          exact ih _ _ hlen2 out hrec

/-- C6: every batch `retrieveBatch` returns holds at most `TxBatchSize`
requests; observing context cancellation returns the empty batch; a full
batch is returned immediately exactly when `WaitFullBatchTimeout` is false,
and only after the timer fires when it is true; the timer firing returns
whatever has accumulated. -/
theorem TxrV2_retrieveBatch_spec (cfg : Config) (queue : List Request)
    (script : List BatchEvent) :
    (∀ out, retrieveBatch cfg queue script = some out →
      (batchOf out).length ≤ cfg.txBatchSize) ∧
    (∀ rest, script = BatchEvent.ctxDone :: rest →
      retrieveBatch cfg queue script = some .cancelled ∧
      batchOf BatchOutcome.cancelled = []) ∧
    (∀ b, retrieveBatch cfg queue script = some (.fullEarly b) →
      cfg.waitFullBatchTimeout = false ∧ b.length = cfg.txBatchSize) ∧
    (∀ b, retrieveBatch cfg queue script = some (.fullAfterTimer b) →
      cfg.waitFullBatchTimeout = true ∧ b.length = cfg.txBatchSize) ∧
    (∀ rest, script = BatchEvent.timerFired :: rest →
      retrieveBatch cfg queue script = some (.timedOut [])) := by
  refine ⟨?_, ?_, ?_, ?_, ?_⟩
  · intro out h
    exact (retrieveBatchGo_spec cfg script queue [] (by simp) out h).1
  · rintro rest rfl
    exact ⟨rfl, rfl⟩
  · intro b h
    exact (retrieveBatchGo_spec cfg script queue [] (by simp) _ h).2.1 b rfl
  · intro b h
    exact (retrieveBatchGo_spec cfg script queue [] (by simp) _ h).2.2 b rfl
  · rintro rest rfl
    rfl

/-- Witness for C6: batch size 2, `WaitFullBatchTimeout` false, a queue of 3
requests and a script whose first pull fills the batch: the second default
step returns the full 2-element batch early. -/
theorem TxrV2_retrieveBatch_spec_witness :
    retrieveBatch (Config.mk 2 false false)
      [Request.mk "a" 0 0 0 [], Request.mk "b" 0 0 0 [], Request.mk "c" 0 0 0 []]
      [BatchEvent.step (some 5), BatchEvent.step (some 5)]
      = some (.fullEarly [Request.mk "a" 0 0 0 [], Request.mk "b" 0 0 0 []]) ∧
    (Config.mk 2 false false).waitFullBatchTimeout = false ∧
    [Request.mk "a" 0 0 0 [], Request.mk "b" 0 0 0 []].length
      = (Config.mk 2 false false).txBatchSize := by
  have hrun : retrieveBatch (Config.mk 2 false false)
      [Request.mk "a" 0 0 0 [], Request.mk "b" 0 0 0 [], Request.mk "c" 0 0 0 []]
      [BatchEvent.step (some 5), BatchEvent.step (some 5)]
      = some (.fullEarly [Request.mk "a" 0 0 0 [], Request.mk "b" 0 0 0 []]) := by
    decide
  have h := (TxrV2_retrieveBatch_spec (Config.mk 2 false false)
      [Request.mk "a" 0 0 0 [], Request.mk "b" 0 0 0 [], Request.mk "c" 0 0 0 []]
      [BatchEvent.step (some 5), BatchEvent.step (some 5)]).2.2.1
      [Request.mk "a" 0 0 0 [], Request.mk "b" 0 0 0 []] hrun
  exact ⟨hrun, h.1, h.2⟩

/-! ## TxrV2.fire (src/unnamed/part_000)

`fire` mutates a `tracker.Response` and performs effects (state marks, a
deferred conditional dispatch, a tracker hand-off); it is embedded as a
function from the build and send results to the response error plus an
effect record.  The build result is the factory's
`BuildTransactionFromRequests` answer and the send result the sender's
`SendTransaction` error, both external to this function. -/

inductive TrackerStatus
  | pending
  | success
  | reverted
  | error
  | staleMempool
  | staleReceipt
deriving DecidableEq

/-- Modelled from the spec: `tracker.Response.Status()` (tracker package file
not under `src/`) is derived purely from the response's attributes: `Error`
whenever the `Error` field is non-nil, otherwise `Success` / `Reverted` from
the receipt status, `Pending` with no receipt (the stale statuses are set
explicitly by the tracker's timeout paths). -/
def responseStatus (error? : Option String) (receiptStatus? : Option ℕ) :
    TrackerStatus :=
  match error?, receiptStatus? with
  | some _, _ => .error
  | none, some st => if st = 1 then .success else .reverted
  | none, none => .pending

/-- The observable outcome of one `fire` call: the response's `Error` field,
how many times the deferred handler dispatched the response, whether the
transaction was handed to the tracker, the sequence of `markState` calls,
and whether the nonce acquired for the transaction was released. -/
structure FireOutcome where
  respError : Option String
  dispatches : ℕ
  tracked : Bool
  marks : List PreconfirmedState
  nonceReleased : Bool
deriving DecidableEq

/-- The send half of `fire` (from `markState(StateSending, ...)` on): on a
send error the function returns early and the deferred
`if resp.Status() == StatusError { Dispatch(resp) }` fires; `nonceReleased`
is modelled from the spec: the transactor subscribes to its own tracker, and
the subscriber handling a dispatched terminal error response releases the
acquired nonce (the subscription code is not under `src/`). -/
def fireSend (marks0 : List PreconfirmedState) (sendError : Option String) :
    FireOutcome :=
  match sendError with
  | some e =>
    { respError := some e,
      dispatches := if responseStatus (some e) none = .error then 1 else 0,
      tracked := false,
      marks := marks0 ++ [.sending],
      nonceReleased := responseStatus (some e) none = .error }
  | none =>
    { respError := none,
      dispatches := if responseStatus none none = .error then 1 else 0,
      tracked := true,
      marks := marks0 ++ [.sending, .inFlight],
      nonceReleased := false }

/-- Embeds `TxrV2.fire`: when `toBuild` is set, mark `Building` and build first; a
build error sets `resp.Error` and returns early (the deferred dispatch
fires); otherwise send, and on success hand the response to the tracker. -/
def fire (toBuild : Bool) (buildResult : Except String Tx)
    (sendError : Option String) : FireOutcome :=
  if toBuild then
    match buildResult with
    | .error e =>
      { respError := some e,
        dispatches := if responseStatus (some e) none = .error then 1 else 0,
        tracked := false,
        marks := [.building],
        nonceReleased := responseStatus (some e) none = .error }
    | .ok _tx => fireSend [.building] sendError
  else fireSend [] sendError

/-- C5: whenever building or sending fails in `fire`, the response carries
the error, its derived status is `Error`, it is dispatched exactly once, the
transaction is not handed to the tracker, and the acquired nonce is
released. -/
theorem TxrV2_fire_error_path (buildResult : Except String Tx)
    (sendError : Option String) :
    (∀ e, buildResult = .error e →
      (fire true buildResult sendError).respError = some e ∧
      responseStatus (fire true buildResult sendError).respError none = .error ∧
      (fire true buildResult sendError).dispatches = 1 ∧
      (fire true buildResult sendError).tracked = false ∧
      (fire true buildResult sendError).nonceReleased = true) ∧
    (∀ tx e, buildResult = .ok tx → sendError = some e →
      (fire true buildResult sendError).respError = some e ∧
      responseStatus (fire true buildResult sendError).respError none = .error ∧
      (fire true buildResult sendError).dispatches = 1 ∧
      (fire true buildResult sendError).tracked = false ∧
      (fire true buildResult sendError).nonceReleased = true) := by
  constructor
  · rintro e rfl
    simp [fire, responseStatus]
  · rintro tx e rfl rfl
    simp [fire, fireSend, responseStatus]

/-- Witness for C5: a failed send dispatches the error response once,
skips the tracker and releases the nonce. -/
theorem TxrV2_fire_error_path_witness :
    (fire true (.ok (Tx.mk 1 10 20 3 4 5 [6])) (some "boom")).respError
      = some "boom" ∧
    (fire true (.ok (Tx.mk 1 10 20 3 4 5 [6])) (some "boom")).dispatches = 1 ∧
    (fire true (.ok (Tx.mk 1 10 20 3 4 5 [6])) (some "boom")).tracked = false ∧
    (fire true (.ok (Tx.mk 1 10 20 3 4 5 [6])) (some "boom")).nonceReleased
      = true := by
  have h := (TxrV2_fire_error_path (.ok (Tx.mk 1 10 20 3 4 5 [6]))
    (some "boom")).2 (Tx.mk 1 10 20 3 4 5 [6]) "boom" rfl rfl
  exact ⟨h.1, h.2.2.1, h.2.2.2.1, h.2.2.2.2⟩
